import Mathlib

/-!
Verification of the `Prototype` model-pipeline container from
`opendeep/models/container.py`.

The container holds an ordered list of model units and aggregates their
capabilities (symbolic inputs, outputs, training cost, trainable parameters,
update rules) across the sequence.  Below is a shallow embedding of the
container's code:

  * a symbolic tensor variable (`TVar`) carries an identity, the flags the
    code inspects (`isinstance(input, T.TensorVariable)`,
    `hasattr(input, 'owner')`, `input.owner is None`), and the behaviour of
    Python iteration over it (`vecLen`): iterating a Theano tensor variable
    yields the symbolic subtensors `v[0] .. v[n-1]` when the variable is a
    vector of statically known length `n`, and raises `TypeError` otherwise;
  * a model unit (`ModelU`) is the record of capability results the container
    queries: its input list, output expression, training cost, parameter
    identities, and (optionally) the address of its update dictionary;
  * Python dictionaries are association lists (`UpdDict`), and because
    `get_updates` mutates the first contributing unit's dictionary in place
    via `dict.update`, dictionaries live in an addressed `Store` and units
    refer to theirs by address;
  * Python list indexing (`models[item]`, with negative wrap-around and
    `IndexError`) is `pyGetItem`;
  * raised exceptions are the `Except PyErr` error path, and the non-fatal
    `log.warning` diagnostics are a Boolean "warning emitted" component of a
    result.
-/

/-- Python exceptions the embedded code can raise. -/
inductive PyErr
  | typeError
  | indexError
deriving DecidableEq, Repr

instance {ε α : Type} [DecidableEq ε] [DecidableEq α] :
    DecidableEq (Except ε α) := fun x y =>
  match x, y with
  | .ok a, .ok b =>
      if h : a = b then .isTrue (by rw [h]) else .isFalse (by simp [h])
  | .error e, .error f =>
      if h : e = f then .isTrue (by rw [h]) else .isFalse (by simp [h])
  | .ok _, .error _ => .isFalse (by simp)
  | .error _, .ok _ => .isFalse (by simp)

/-- A Theano symbolic tensor variable as the container's code observes it:
an identity, whether it is a `T.TensorVariable`, whether it has an `owner`
attribute, its owner (`none` = un-derived leaf), and — for Python iteration —
`some n` when it is a vector of statically known length `n` (iteration yields
the `n` symbolic subtensors) and `none` otherwise (iteration raises
`TypeError`). -/
structure TVar where
  id : Nat
  isTensor : Bool
  hasOwnerAttr : Bool
  owner : Option Nat
  vecLen : Option Nat
deriving DecidableEq, Repr

/-- A convenient constructor for an un-derived leaf tensor variable (a matrix
or other tensor of unknown vector length, the common case). -/
def leafTVar (i : Nat) : TVar :=
  { id := i, isTensor := true, hasOwnerAttr := true, owner := none, vecLen := none }

/-- The symbolic subtensor `v[i]` produced by Python iteration over a vector
tensor variable: a derived variable (its owner is the subtensor apply node). -/
def subtensorVar (v : TVar) (i : Nat) : TVar :=
  { id := Nat.pair v.id i + 1000000, isTensor := true, hasOwnerAttr := true,
    owner := some (Nat.pair v.id i), vecLen := none }

/-- Python iteration over a tensor variable (what `list.extend(input)` does to
its argument): a vector of statically known length `n` yields the subtensors
`v[0] .. v[n-1]`; any other tensor raises `TypeError`. -/
def tvarIterate (v : TVar) : Except PyErr (List TVar) :=
  match v.vecLen with
  | some n => .ok ((List.range n).map (subtensorVar v))
  | none => .error .typeError

/-- A Python dictionary of Theano updates, key = stateful shared-variable
identity, value = new-value expression identity. -/
abbrev UpdDict := List (Nat × Nat)

/-- The heap of update dictionaries; a dictionary is referred to by its index
(address) in this list, so that in-place mutation by `dict.update` is
observable. -/
structure Store where
  dicts : List UpdDict
deriving DecidableEq, Repr

/-- Read the dictionary at address `a`. -/
def Store.get (st : Store) (a : Nat) : UpdDict :=
  st.dicts.getD a []

/-- Overwrite the dictionary at address `a` (in-place mutation of the object
at that address). -/
def Store.set (st : Store) (a : Nat) (d : UpdDict) : Store :=
  ⟨st.dicts.set a d⟩

/-- Python `d[k] = v` on a dictionary as association list: replace the value
at an existing key in place, or append a new key at the end. -/
def dictSetKey (acc : UpdDict) (kv : Nat × Nat) : UpdDict :=
  if acc.any (fun p => p.1 = kv.1) then
    acc.map (fun p => if p.1 = kv.1 then (p.1, kv.2) else p)
  else acc ++ [kv]

/-- Python `d.update(cur)`: assign each key/value pair of `cur` in order. -/
def dictUpdate (d cur : UpdDict) : UpdDict :=
  cur.foldl dictSetKey d

/-- One model unit of the pipeline, recorded as the capability results the
container queries from it: `get_inputs()`, `get_outputs()`,
`get_train_cost()`, `get_params()` (parameter identities), and
`get_updates()` (`some a` = the unit owns the update dictionary at address
`a`; `none` = the unit has no updates). -/
structure ModelU where
  inputs : List TVar
  outputs : TVar
  trainCost : TVar
  params : List Nat
  updates : Option Nat
deriving DecidableEq, Repr

/-- The compiled predictor memoized by `predict`: the snapshot of
`get_inputs()`, `get_outputs()` and `get_updates()` it was compiled from. -/
structure Compiled where
  cinputs : List TVar
  coutputs : Option TVar
  cupdates : Option Nat
deriving DecidableEq, Repr

/-- The `Prototype` container state: the ordered model list built by `add`,
and the memoized compiled predictor (`none` until the first `predict` call;
`hasattr(self, 'f_predict')` is `f_predict.isSome`). -/
structure Prototype where
  models : List ModelU
  f_predict : Option Compiled
deriving DecidableEq, Repr

/-- `Prototype.__init__`: empty model list, no compiled predictor yet. -/
def Prototype.empty : Prototype :=
  { models := [], f_predict := none }

/-- `Prototype.add(model)`: `self.models.append(model)`. -/
def Prototype.add (p : Prototype) (m : ModelU) : Prototype :=
  { p with models := p.models ++ [m] }

/-- Python index normalization: a negative index is offset by the length. -/
def pyIndex (n : Nat) (i : Int) : Int :=
  if i < 0 then i + n else i

/-- Python list indexing `xs[i]`: a negative index is offset by the length;
an index still out of range raises `IndexError`. -/
def pyGetItem (xs : List ModelU) (i : Int) : Except PyErr ModelU :=
  if h : 0 ≤ pyIndex xs.length i ∧ (pyIndex xs.length i).toNat < xs.length then
    .ok (xs.get ⟨(pyIndex xs.length i).toNat, h.2⟩)
  else .error .indexError

/-- `Prototype.__getitem__(item)`: `return self.models[item]`. -/
def Prototype.getItem (p : Prototype) (i : Int) : Except PyErr ModelU :=
  pyGetItem p.models i

/-- `Prototype.__iter__`: yields the models in list order. -/
def Prototype.iter (p : Prototype) : List ModelU :=
  p.models

/-- The inner loop of `Prototype.get_inputs`: for each `input` of a unit's
input list, if it is a tensor variable with an `owner` attribute and the
owner is `None`, execute `inputs.extend(input)` — which iterates the tensor
variable itself, splicing in its subtensor elements or raising `TypeError`. -/
def collectInputs (acc : List TVar) (vs : List TVar) : Except PyErr (List TVar) :=
  match vs with
  | [] => .ok acc
  | v :: rest =>
    if v.isTensor ∧ v.hasOwnerAttr then
      if v.owner = none then
        match tvarIterate v with
        | .ok elems => collectInputs (acc ++ elems) rest
        | .error e => .error e
      else collectInputs acc rest
    else collectInputs acc rest

/-- The outer loop of `Prototype.get_inputs`: walk the models in order,
feeding each one's input list through `collectInputs`. -/
def get_inputs_aux (ms : List ModelU) (acc : List TVar) : Except PyErr (List TVar) :=
  match ms with
  | [] => .ok acc
  | m :: rest =>
    match collectInputs acc m.inputs with
    | .ok acc2 => get_inputs_aux rest acc2
    | .error e => .error e

/-- `Prototype.get_inputs()`: collect, across every unit in order, those of
its declared inputs that are un-derived leaf tensor variables, via
`inputs.extend(input)`. -/
def get_inputs (ms : List ModelU) : Except PyErr (List TVar) :=
  get_inputs_aux ms []

/-- `Prototype.get_outputs()`: the last model's outputs when the container is
non-empty, otherwise `None` together with a `log.warning` diagnostic (the
Boolean component records that the warning was emitted; no exception path
exists). -/
def get_outputs (ms : List ModelU) : Option TVar × Bool :=
  match ms.getLast? with
  | some m => (some m.outputs, false)
  | none => (none, true)

/-- `Prototype.get_train_cost()`: the last model's training cost when the
container is non-empty, otherwise `None` together with a `log.warning`
diagnostic. -/
def get_train_cost (ms : List ModelU) : Option TVar × Bool :=
  match ms.getLast? with
  | some m => (some m.trainCost, false)
  | none => (none, true)

/-- The loop of `Prototype.get_updates`: `updates` starts as `None`; for each
model, when `updates` and the model's (non-empty) dictionary are both truthy,
`updates.update(current_updates)` mutates the dictionary `updates` refers to
in place; when only the model's dictionary is truthy, `updates` is rebound to
that very dictionary object (its address). An empty dictionary is falsy and
contributes nothing. -/
def get_updates_aux (ms : List ModelU) (upd : Option Nat) (st : Store) :
    Option Nat × Store :=
  match ms with
  | [] => (upd, st)
  | m :: rest =>
    match m.updates with
    | none => get_updates_aux rest upd st
    | some a =>
      let cur := st.get a
      if cur = [] then get_updates_aux rest upd st
      else
        match upd with
        | some u =>
          if st.get u = [] then get_updates_aux rest (some a) st
          else get_updates_aux rest (some u) (st.set u (dictUpdate (st.get u) cur))
        | none => get_updates_aux rest (some a) st

/-- `Prototype.get_updates()`: merge the units' update dictionaries in
pipeline order, returning `none` when no unit contributed; the returned
address is the dictionary object handed back, and the returned store reflects
the in-place mutations performed by `dict.update`. -/
def get_updates (ms : List ModelU) (st : Store) : Option Nat × Store :=
  get_updates_aux ms none st

/-- The body of the inner loop of `Prototype.get_params`: append the
parameter only if it is not already in the list (`param not in params`;
Theano variables compare by object identity). -/
def paramInsert (ps : List Nat) (q : Nat) : List Nat :=
  if q ∈ ps then ps else ps ++ [q]

/-- `Prototype.get_params()`: concatenate every model's parameter list,
appending a parameter only if it is not already present. -/
def get_params (ms : List ModelU) : List Nat :=
  ms.foldl (fun params m => m.params.foldl paramInsert params) []

/-- `Prototype.predict(input)`: if `f_predict` is already memoized, apply it;
otherwise take the `get_inputs`/`get_outputs`/`get_updates` snapshot, compile
and memoize it, and apply it. The produced value is recorded as the pair
(compiled function used, raw input), since running the compiled Theano
function is external. -/
def predict (p : Prototype) (st : Store) (x : Nat) :
    Except PyErr ((Compiled × Nat) × Prototype × Store) :=
  match p.f_predict with
  | some f => .ok ((f, x), p, st)
  | none =>
    match get_inputs p.models with
    | .error e => .error e
    | .ok inps =>
      let outs := (get_outputs p.models).1
      let r := get_updates p.models st
      let f : Compiled := ⟨inps, outs, r.1⟩
      .ok ((f, x), { p with f_predict := some f }, r.2)

/-! ### Sample units used by closed witness statements -/

/-- A sample unit: one leaf matrix input, no updates. -/
def unitA : ModelU :=
  { inputs := [leafTVar 1], outputs := leafTVar 2, trainCost := leafTVar 3,
    params := [10, 11], updates := none }

/-- A sample unit: no declared inputs, no updates. -/
def unitB : ModelU :=
  { inputs := [], outputs := leafTVar 4, trainCost := leafTVar 5,
    params := [11, 12], updates := none }

/-! ### Helper lemmas -/

/-- Folding `add` over a unit list appends the units to the model list. -/
theorem foldl_add_models (p : Prototype) (units : List ModelU) :
    (units.foldl Prototype.add p).models = p.models ++ units := by
  induction units generalizing p with
  | nil => simp
  | cons u us ih =>
      simp only [List.foldl_cons, ih, Prototype.add, List.append_assoc,
        List.singleton_append]

/-- Python indexing at a plain natural-number index within range returns the
element at that position. -/
theorem pyGetItem_natIdx (xs : List ModelU) (i : Nat) (h : i < xs.length) :
    pyGetItem xs i = .ok (xs.get ⟨i, h⟩) := by
  have h0 : ¬ ((i : Int) < 0) := by omega
  have h1 : pyIndex xs.length i = i := by simp [pyIndex, h0]
  have h2 : ((i : Int)).toNat = i := by omega
  unfold pyGetItem
  rw [dif_pos]
  · congr 1
  · refine ⟨by omega, ?_⟩
    rw [h1, h2]
    exact h

/-- Python indexing raises `IndexError` exactly when the index, negative
offsets included, falls outside the list. -/
theorem pyGetItem_error_iff (xs : List ModelU) (i : Int) :
    pyGetItem xs i = .error .indexError ↔
      i < -(xs.length : Int) ∨ (xs.length : Int) ≤ i := by
  unfold pyGetItem pyIndex
  by_cases hi : i < 0 <;>
    simp only [hi, if_true, if_false] <;>
    · split
      · rename_i h
        simp only [reduceCtorEq, false_iff]
        omega
      · rename_i h
        simp only [true_iff]
        omega

/-! ### Claims about indexing, iteration and the last-unit queries -/

/-- C7: for every sequence of `add` calls starting from an empty container,
iteration afterwards yields the units exactly in addition order, and `get(i)`
returns exactly the i-th added unit for each valid position. -/
theorem add_preserves_order (units : List ModelU) :
    (units.foldl Prototype.add Prototype.empty).iter = units ∧
    ∀ (i : Nat) (h : i < units.length),
      (units.foldl Prototype.add Prototype.empty).getItem i =
        .ok (units.get ⟨i, h⟩) := by
  have hm : (units.foldl Prototype.add Prototype.empty).models = units := by
    rw [foldl_add_models]
    rfl
  refine ⟨hm, ?_⟩
  intro i h
  unfold Prototype.getItem
  rw [hm]
  exact pyGetItem_natIdx units i h

/-- Witness for C7 at a concrete two-unit addition sequence. -/
theorem add_preserves_order_witness :
    ([unitA, unitB].foldl Prototype.add Prototype.empty).iter = [unitA, unitB] ∧
    ([unitA, unitB].foldl Prototype.add Prototype.empty).getItem 1 = .ok unitB :=
  ⟨(add_preserves_order [unitA, unitB]).1,
   (add_preserves_order [unitA, unitB]).2 1 (by decide)⟩

/-- C8: `get(index)` returns the unit at position `index` when that is a
valid position, and fails with `IndexError` exactly when the index — Python
negative offsets included — is out of range. -/
theorem getItem_spec (p : Prototype) (i : Int) :
    (∀ (k : Nat) (hk : k < p.models.length), i = (k : Int) →
        p.getItem i = .ok (p.models.get ⟨k, hk⟩)) ∧
    (p.getItem i = .error .indexError ↔
        i < -(p.models.length : Int) ∨ (p.models.length : Int) ≤ i) := by
  constructor
  · rintro k hk rfl
    exact pyGetItem_natIdx p.models k hk
  · exact pyGetItem_error_iff p.models i

/-- Witness for C8: on a two-unit container, `get(1)` returns the second
unit and `get(2)` raises `IndexError`. -/
theorem getItem_spec_witness :
    (Prototype.mk [unitA, unitB] none).getItem 1 = .ok unitB ∧
    (Prototype.mk [unitA, unitB] none).getItem 2 = .error .indexError :=
  ⟨(getItem_spec (Prototype.mk [unitA, unitB] none) 1).1 1 (by decide) rfl,
   (getItem_spec (Prototype.mk [unitA, unitB] none) 2).2.mpr (by decide)⟩

/-- C10: for a container with `n ≥ 1` units and `1 ≤ k ≤ n`, `get(-k)` does
not raise: it returns the unit at position `n - k`. -/
theorem getItem_negative (p : Prototype) (k : Nat) (h1 : 1 ≤ k)
    (h2 : k ≤ p.models.length) :
    ∃ hm : p.models.length - k < p.models.length,
      p.getItem (-(k : Int)) = .ok (p.models.get ⟨p.models.length - k, hm⟩) := by
  refine ⟨by omega, ?_⟩
  have hneg : (-(k : Int)) < 0 := by omega
  have hidx : pyIndex p.models.length (-(k : Int)) = (p.models.length : Int) - k := by
    simp only [pyIndex, hneg, if_true]
    omega
  have htn : ((p.models.length : Int) - k).toNat = p.models.length - k := by omega
  unfold Prototype.getItem pyGetItem
  rw [dif_pos]
  · simp only [hidx, htn]
  · rw [hidx, htn]
    constructor
    · omega
    · omega

/-- Witness for C10: on a two-unit container, `get(-1)` returns the
last-added unit. -/
theorem getItem_negative_witness :
    (Prototype.mk [unitA, unitB] none).getItem (-1) = .ok unitB := by
  have h := getItem_negative (Prototype.mk [unitA, unitB] none) 1
    (by decide) (by decide)
  obtain ⟨hm, he⟩ := h
  exact he

/-- C5: on every non-empty pipeline, `get_outputs()` equals the outputs of
the last unit. -/
theorem get_outputs_eq_last (ms : List ModelU) (h : ms ≠ []) :
    (get_outputs ms).1 = some (ms.getLast h).outputs := by
  unfold get_outputs
  rw [List.getLast?_eq_getLast ms h]

/-- Witness for C5 on a concrete two-unit pipeline. -/
theorem get_outputs_eq_last_witness :
    (get_outputs [unitA, unitB]).1 =
      some (([unitA, unitB].getLast (by decide)).outputs) :=
  get_outputs_eq_last [unitA, unitB] (by decide)

/-- C6: on an empty pipeline, `get_outputs()` and `get_train_cost()` each
return the absent value together with the non-fatal diagnostic warning; their
return type has no exception path, so they cannot raise. -/
theorem empty_pipeline_warns :
    get_outputs [] = (none, true) ∧ get_train_cost [] = (none, true) :=
  ⟨rfl, rfl⟩

/-! ### C1: the `inputs.extend(input)` slip in `get_inputs` -/

/-- The leaf symbolic input `x` of the first unit in the claim's two-unit
scenario: an un-derived tensor variable (a matrix, so Python iteration over
it raises `TypeError`). -/
def xLeaf : TVar := leafTVar 100

/-- The intermediate expression `h`: the first unit's output, to which the
second unit's input is wired; it has a producing owner, so it is not a leaf. -/
def hDerived : TVar :=
  { id := 101, isTensor := true, hasOwnerAttr := true, owner := some 7,
    vecLen := none }

/-- Unit U1 of the claim's scenario: leaf input `x`, output `h`. -/
def unitU1 : ModelU :=
  { inputs := [xLeaf], outputs := hDerived, trainCost := leafTVar 102,
    params := [], updates := none }

/-- Unit U2 of the claim's scenario: input wired to U1's output `h`. -/
def unitU2 : ModelU :=
  { inputs := [hDerived], outputs := leafTVar 103, trainCost := leafTVar 104,
    params := [], updates := none }

/-- A leaf input that happens to be a vector of statically known length 2,
the one shape of tensor variable Python CAN iterate. -/
def xVecLeaf : TVar :=
  { id := 200, isTensor := true, hasOwnerAttr := true, owner := none,
    vecLen := some 2 }

/-- A one-unit pipeline whose only input is the iterable vector leaf. -/
def unitVec : ModelU :=
  { inputs := [xVecLeaf], outputs := leafTVar 201, trainCost := leafTVar 202,
    params := [], updates := none }

/-- C1 (code bug): because the loop body executes `inputs.extend(input)`
instead of appending `input` as one element, `get_inputs()` never returns the
leaf input itself. On the claim's two-unit pipeline (U1 with leaf matrix
input `x`, U2 wired to U1's output `h`) the call raises `TypeError` when
`extend` iterates the matrix variable `x`; and even on a leaf input that is
iterable — a vector of statically known length — the result splices in the
subtensor elements `x[0], x[1]`, not the one-element list `[x]`. -/
theorem get_inputs_extend_bug :
    get_inputs [unitU1, unitU2] = .error .typeError ∧
    get_inputs [unitVec] = .ok [subtensorVar xVecLeaf 0, subtensorVar xVecLeaf 1] ∧
    get_inputs [unitVec] ≠ .ok [xVecLeaf] :=
  ⟨rfl, rfl, by decide⟩

/-! ### C4: `get_params` de-duplication -/

/-- First-occurrence de-duplication: each element is kept at the position of
its first occurrence, later duplicates are dropped. Specification-side
characterization that `get_params` is proved to satisfy. -/
def dedupFirst : List Nat → List Nat
  | [] => []
  | x :: xs => x :: dedupFirst (xs.filter (fun y => y ≠ x))
termination_by l => l.length
decreasing_by
  simp only [List.length_cons]
  exact Nat.lt_succ_of_le (List.length_filter_le _ xs)

/-- Membership is preserved by first-occurrence de-duplication. -/
theorem mem_dedupFirst (a : Nat) (l : List Nat) : a ∈ dedupFirst l ↔ a ∈ l := by
  induction l using dedupFirst.induct with
  | case1 => simp [dedupFirst]
  | case2 x xs ih =>
      rw [dedupFirst]
      simp only [List.mem_cons, ih, List.mem_filter]
      by_cases hax : a = x
      · simp [hax]
      · simp [hax]

/-- First-occurrence de-duplication yields a duplicate-free list. -/
theorem dedupFirst_nodup (l : List Nat) : (dedupFirst l).Nodup := by
  induction l using dedupFirst.induct with
  | case1 => simp [dedupFirst]
  | case2 x xs ih =>
      rw [dedupFirst]
      refine List.nodup_cons.mpr ⟨?_, ih⟩
      intro hmem
      rw [mem_dedupFirst] at hmem
      rcases List.mem_filter.mp hmem with ⟨_, hne⟩
      simp at hne

/-- Filtering out the members of `acc` and then everything equal to `q` is
filtering out the members of `acc ++ [q]`. -/
theorem filter_notMem_append (acc : List Nat) (q : Nat) (l : List Nat) :
    (l.filter (fun a => a ∉ acc)).filter (fun a => a ≠ q)
      = l.filter (fun a => a ∉ acc ++ [q]) := by
  rw [List.filter_filter]
  apply List.filter_congr
  intro a _
  by_cases h1 : a = q <;> by_cases h2 : a ∈ acc <;> simp [h1, h2]

/-- Folding `paramInsert` over a list appends exactly the first-occurrence
de-duplication of the not-yet-present elements. -/
theorem foldl_paramInsert (l acc : List Nat) :
    l.foldl paramInsert acc = acc ++ dedupFirst (l.filter (fun a => a ∉ acc)) := by
  induction l generalizing acc with
  | nil => simp [dedupFirst]
  | cons q rest ih =>
      rw [List.foldl_cons]
      by_cases hq : q ∈ acc
      · have h1 : paramInsert acc q = acc := by simp [paramInsert, hq]
        have h2 : rest.filter (fun a => a ∉ acc)
            = (q :: rest).filter (fun a => a ∉ acc) := by
          simp [List.filter_cons, hq]
        rw [h1, ih, h2]
      · have h1 : paramInsert acc q = acc ++ [q] := by simp [paramInsert, hq]
        have h2 : (q :: rest).filter (fun a => a ∉ acc)
            = q :: rest.filter (fun a => a ∉ acc) := by
          simp [List.filter_cons, hq]
        rw [h1, ih, h2, dedupFirst, filter_notMem_append, List.append_assoc,
          List.singleton_append]

/-- `get_params` is the `paramInsert`-fold over the concatenation of the
units' parameter lists. -/
theorem get_params_eq_foldl (ms : List ModelU) :
    get_params ms = ((ms.map (fun m => m.params)).flatten).foldl paramInsert [] := by
  unfold get_params
  suffices hgen : ∀ acc, ms.foldl (fun params m => m.params.foldl paramInsert params) acc
      = ((ms.map (fun m => m.params)).flatten).foldl paramInsert acc by
    exact hgen []
  induction ms with
  | nil => intro acc; simp
  | cons m rest ih =>
      intro acc
      simp only [List.foldl_cons, List.map_cons, List.flatten_cons,
        List.foldl_append, ih]

/-- C4: `get_params()` equals the first-occurrence de-duplication of the
concatenation of the units' parameter lists in pipeline order, and in
particular never contains the same parameter identity twice. -/
theorem get_params_dedup (ms : List ModelU) :
    get_params ms = dedupFirst ((ms.map (fun m => m.params)).flatten) ∧
    (get_params ms).Nodup := by
  have hfil : ∀ l : List Nat, l.filter (fun a => a ∉ ([] : List Nat)) = l := by
    intro l
    simp
  have key : get_params ms = dedupFirst ((ms.map (fun m => m.params)).flatten) := by
    rw [get_params_eq_foldl, foldl_paramInsert, hfil, List.nil_append]
  exact ⟨key, key ▸ dedupFirst_nodup _⟩

/-! ### C2 and C9: `get_updates` merging, aliasing and in-place mutation -/

/-- The update-dictionary addresses declared by the models, in pipeline
order. -/
def updAddrs (ms : List ModelU) : List Nat :=
  ms.filterMap (fun m => m.updates)

/-- The (address, dictionary) pairs of the models whose update dictionary is
truthy (non-empty) in the given store — the units whose updates contribute to
the merge — in pipeline order. -/
def contribUpdates (ms : List ModelU) (st : Store) : List (Nat × UpdDict) :=
  ms.filterMap (fun m =>
    match m.updates with
    | some a => if st.get a = [] then none else some (a, st.get a)
    | none => none)

/-- Sequential `dict.update` merge of a list of dictionaries: the first one
updated with each later one in turn. -/
def mergeDicts : List UpdDict → UpdDict
  | [] => []
  | d :: rest => rest.foldl dictUpdate d

/-- Writing an address leaves the heap size unchanged. -/
theorem Store.length_set (st : Store) (a : Nat) (d : UpdDict) :
    (st.set a d).dicts.length = st.dicts.length :=
  List.length_set st.dicts a d

/-- Reading an address just written (within bounds) gives the new value. -/
theorem Store.get_set_self (st : Store) (a : Nat) (d : UpdDict)
    (h : a < st.dicts.length) : (st.set a d).get a = d := by
  simp [Store.get, Store.set, List.getD, List.getElem?_set_eq_of_lt d h]

/-- Reading a different address after a write is unaffected. -/
theorem Store.get_set_ne (st : Store) (a b : Nat) (d : UpdDict)
    (h : a ≠ b) : (st.set a d).get b = st.get b := by
  simp [Store.get, Store.set, List.getD, List.getElem?_set_ne h]

/-- An address holding a non-empty dictionary is within the heap. -/
theorem Store.lt_of_get_ne_nil (st : Store) (a : Nat)
    (h : st.get a ≠ []) : a < st.dicts.length := by
  by_contra hc
  exact h (List.getD_eq_default _ _ (by omega))

/-- A single Python dictionary assignment never shrinks the dictionary. -/
theorem length_le_dictSetKey (d : UpdDict) (kv : Nat × Nat) :
    d.length ≤ (dictSetKey d kv).length := by
  unfold dictSetKey
  split
  · simp
  · simp

/-- `dict.update` never shrinks the dictionary being updated. -/
theorem length_le_dictUpdate (d cur : UpdDict) :
    d.length ≤ (dictUpdate d cur).length := by
  unfold dictUpdate
  induction cur generalizing d with
  | nil => simp
  | cons kv rest ih =>
      rw [List.foldl_cons]
      exact le_trans (length_le_dictSetKey d kv) (ih (dictSetKey d kv))

/-- Updating a non-empty dictionary leaves it non-empty (truthy). -/
theorem dictUpdate_ne_nil (d cur : UpdDict) (h : d ≠ []) :
    dictUpdate d cur ≠ [] := by
  intro hc
  have h1 := length_le_dictUpdate d cur
  rw [hc] at h1
  simp only [List.length_nil, Nat.le_zero] at h1
  exact h (List.length_eq_zero.mp h1)

/-- `updAddrs` on a model without updates skips it. -/
theorem updAddrs_cons_none (m : ModelU) (rest : List ModelU)
    (hm : m.updates = none) : updAddrs (m :: rest) = updAddrs rest := by
  unfold updAddrs
  rw [List.filterMap_cons]
  simp [hm]

/-- `updAddrs` on a model with updates prepends its address. -/
theorem updAddrs_cons_some (m : ModelU) (rest : List ModelU) (a : Nat)
    (hm : m.updates = some a) : updAddrs (m :: rest) = a :: updAddrs rest := by
  unfold updAddrs
  rw [List.filterMap_cons]
  simp [hm]

/-- Writing an address no model refers to does not change which models
contribute nor their dictionaries. -/
theorem contribUpdates_set_ne (ms : List ModelU) (st : Store) (u : Nat)
    (d : UpdDict) (hu : u ∉ updAddrs ms) :
    contribUpdates ms (st.set u d) = contribUpdates ms st := by
  induction ms with
  | nil => rfl
  | cons m rest ih =>
      match hm : m.updates with
      | none =>
          have hu2 : u ∉ updAddrs rest := by
            rw [updAddrs_cons_none m rest hm] at hu
            exact hu
          simp only [contribUpdates, List.filterMap_cons, hm]
          exact ih hu2
      | some a =>
          have hcons := updAddrs_cons_some m rest a hm
          rw [hcons] at hu
          have hau : u ≠ a := fun hc => hu (by rw [hc]; exact List.mem_cons_self a _)
          have hu2 : u ∉ updAddrs rest := fun hc => hu (List.mem_cons_of_mem a hc)
          simp only [contribUpdates, List.filterMap_cons, hm]
          rw [Store.get_set_ne st u a d hau]
          have ih2 := ih hu2
          simp only [contribUpdates] at ih2
          rw [ih2]

/-- Invariant of the `get_updates` loop once a first contributing dictionary
(address `u`) is held: the loop keeps returning that same address, folds every
later contributing dictionary into the one at `u` by `dict.update`, and
touches no other address. -/
theorem get_updates_aux_invariant (ms : List ModelU) (st : Store) (u : Nat)
    (hu : u < st.dicts.length) (hnotin : u ∉ updAddrs ms)
    (hne : st.get u ≠ []) :
    (get_updates_aux ms (some u) st).1 = some u ∧
    ((get_updates_aux ms (some u) st).2).get u =
      ((contribUpdates ms st).map Prod.snd).foldl dictUpdate (st.get u) ∧
    (∀ b, b ≠ u → ((get_updates_aux ms (some u) st).2).get b = st.get b) ∧
    ((get_updates_aux ms (some u) st).2).dicts.length = st.dicts.length := by
  induction ms generalizing st with
  | nil => exact ⟨rfl, rfl, fun b _ => rfl, rfl⟩
  | cons m rest ih =>
      match hm : m.updates with
      | none =>
          have hnotin2 : u ∉ updAddrs rest := by
            rw [updAddrs_cons_none m rest hm] at hnotin
            exact hnotin
          have hstep : get_updates_aux (m :: rest) (some u) st
              = get_updates_aux rest (some u) st := by
            simp only [get_updates_aux, hm]
          have hcontrib : contribUpdates (m :: rest) st = contribUpdates rest st := by
            simp only [contribUpdates, List.filterMap_cons, hm]
          rw [hstep, hcontrib]
          exact ih st hu hnotin2 hne
      | some a =>
          have hcons := updAddrs_cons_some m rest a hm
          rw [hcons] at hnotin
          have hau : u ≠ a := fun hc => hnotin (by rw [hc]; exact List.mem_cons_self a _)
          have hnotin2 : u ∉ updAddrs rest := fun hc => hnotin (List.mem_cons_of_mem a hc)
          by_cases hcur : st.get a = []
          · have hstep : get_updates_aux (m :: rest) (some u) st
                = get_updates_aux rest (some u) st := by
              simp only [get_updates_aux, hm, hcur, if_true]
            have hcontrib : contribUpdates (m :: rest) st = contribUpdates rest st := by
              simp only [contribUpdates, List.filterMap_cons, hm, hcur, if_true]
            rw [hstep, hcontrib]
            exact ih st hu hnotin2 hne
          · have hstep : get_updates_aux (m :: rest) (some u) st
                = get_updates_aux rest (some u)
                    (st.set u (dictUpdate (st.get u) (st.get a))) := by
              simp only [get_updates_aux, hm, if_neg hcur, if_neg hne]
            have hcontrib : contribUpdates (m :: rest) st
                = (a, st.get a) :: contribUpdates rest st := by
              simp only [contribUpdates, List.filterMap_cons, hm, if_neg hcur]
            set st2 := st.set u (dictUpdate (st.get u) (st.get a)) with hst2
            have hu2 : u < st2.dicts.length := by
              rw [hst2, Store.length_set]
              exact hu
            have hget2 : st2.get u = dictUpdate (st.get u) (st.get a) := by
              rw [hst2]
              exact Store.get_set_self st u _ hu
            have hne2 : st2.get u ≠ [] := by
              rw [hget2]
              exact dictUpdate_ne_nil _ _ hne
            have hco2 : contribUpdates rest st2 = contribUpdates rest st := by
              rw [hst2]
              exact contribUpdates_set_ne rest st u _ hnotin2
            obtain ⟨ih1, ih2, ih3, ih4⟩ := ih st2 hu2 hnotin2 hne2
            refine ⟨?_, ?_, ?_, ?_⟩
            · rw [hstep]
              exact ih1
            · rw [hstep, hcontrib]
              rw [ih2, hco2, hget2]
              simp only [List.map_cons, List.foldl_cons]
            · intro b hb
              rw [hstep]
              rw [ih3 b hb, hst2, Store.get_set_ne st u b _ (fun hc => hb hc.symm)]
            · rw [hstep, ih4, hst2, Store.length_set]

/-- When no model declares updates, the loop never leaves its initial `None`
accumulator and the store is untouched. -/
theorem get_updates_no_updates (ms : List ModelU) (st : Store) :
    (∀ m ∈ ms, m.updates = none) → get_updates ms st = (none, st) := by
  unfold get_updates
  induction ms with
  | nil => intro _; rfl
  | cons m rest ih =>
      intro h
      have hm := h m (List.mem_cons_self m rest)
      simp only [get_updates_aux, hm]
      exact ih (fun x hx => h x (List.mem_cons_of_mem m hx))

/-- Full characterization of `get_updates` when some unit contributes: the
result is the address of the first contributing unit's dictionary, that
dictionary now holds the sequential `dict.update` merge of all contributing
dictionaries in pipeline order, and every other address is untouched. -/
theorem get_updates_head (ms : List ModelU) (st : Store)
    (hnodup : (updAddrs ms).Nodup) (a : Nat) (d : UpdDict)
    (hhead : (contribUpdates ms st).head? = some (a, d)) :
    (get_updates ms st).1 = some a ∧
    ((get_updates ms st).2).get a =
      mergeDicts ((contribUpdates ms st).map Prod.snd) ∧
    (∀ b, b ≠ a → ((get_updates ms st).2).get b = st.get b) := by
  unfold get_updates
  induction ms generalizing st with
  | nil => simp [contribUpdates] at hhead
  | cons m rest ih =>
      match hm : m.updates with
      | none =>
          have hnd2 : (updAddrs rest).Nodup := by
            rw [updAddrs_cons_none m rest hm] at hnodup
            exact hnodup
          have hcontrib : contribUpdates (m :: rest) st = contribUpdates rest st := by
            simp only [contribUpdates, List.filterMap_cons, hm]
          have hstep : get_updates_aux (m :: rest) none st
              = get_updates_aux rest none st := by
            simp only [get_updates_aux, hm]
          rw [hcontrib] at hhead ⊢
          rw [hstep]
          exact ih st hnd2 hhead
      | some a0 =>
          have hcons := updAddrs_cons_some m rest a0 hm
          rw [hcons] at hnodup
          have hnotin : a0 ∉ updAddrs rest := (List.nodup_cons.mp hnodup).1
          have hnd2 : (updAddrs rest).Nodup := (List.nodup_cons.mp hnodup).2
          by_cases hcur : st.get a0 = []
          · have hcontrib : contribUpdates (m :: rest) st = contribUpdates rest st := by
              simp only [contribUpdates, List.filterMap_cons, hm, hcur, if_true]
            have hstep : get_updates_aux (m :: rest) none st
                = get_updates_aux rest none st := by
              simp only [get_updates_aux, hm, hcur, if_true]
            rw [hcontrib] at hhead ⊢
            rw [hstep]
            exact ih st hnd2 hhead
          · have hcontrib : contribUpdates (m :: rest) st
                = (a0, st.get a0) :: contribUpdates rest st := by
              simp only [contribUpdates, List.filterMap_cons, hm, if_neg hcur]
            have hstep : get_updates_aux (m :: rest) none st
                = get_updates_aux rest (some a0) st := by
              simp only [get_updates_aux, hm, if_neg hcur]
            rw [hcontrib] at hhead
            simp only [List.head?_cons, Option.some.injEq, Prod.mk.injEq] at hhead
            obtain ⟨ha, _⟩ := hhead
            have hu : a0 < st.dicts.length := Store.lt_of_get_ne_nil st a0 hcur
            obtain ⟨i1, i2, i3, i4⟩ :=
              get_updates_aux_invariant rest st a0 hu hnotin hcur
            subst ha
            refine ⟨?_, ?_, ?_⟩
            · rw [hstep]
              exact i1
            · rw [hstep, hcontrib]
              simp only [List.map_cons]
              rw [mergeDicts]
              exact i2
            · intro b hb
              rw [hstep]
              exact i3 b hb

/-- C2: when no unit has updates, `get_updates()` returns the absent value
(`none`, not an empty mapping) and leaves every dictionary untouched; when
units contribute (their dictionaries pairwise distinct objects), the
resulting mapping is the key-wise `dict.update` merge of the contributing
units' mappings in pipeline order, later units overriding earlier ones on
key collision. -/
theorem get_updates_spec (ms : List ModelU) (st : Store) :
    ((∀ m ∈ ms, m.updates = none) → get_updates ms st = (none, st)) ∧
    ((updAddrs ms).Nodup →
      ∀ a d, (contribUpdates ms st).head? = some (a, d) →
        (get_updates ms st).1 = some a ∧
        ((get_updates ms st).2).get a =
          mergeDicts ((contribUpdates ms st).map Prod.snd)) :=
  ⟨get_updates_no_updates ms st,
   fun hnd a d hh =>
     ⟨(get_updates_head ms st hnd a d hh).1,
      (get_updates_head ms st hnd a d hh).2.1⟩⟩

/-- A sample unit owning the update dictionary at heap address 0. -/
def unitUpd0 : ModelU :=
  { inputs := [], outputs := leafTVar 300, trainCost := leafTVar 301,
    params := [], updates := some 0 }

/-- A sample unit owning the update dictionary at heap address 1. -/
def unitUpd1 : ModelU :=
  { inputs := [], outputs := leafTVar 302, trainCost := leafTVar 303,
    params := [], updates := some 1 }

/-- A two-dictionary heap: `{a ↦ x}` at address 0 and `{a ↦ y}` at address 1
(key 1, values 10 and 20). -/
def stXY : Store := ⟨[[(1, 10)], [(1, 20)]]⟩

/-- A second two-dictionary heap used by the C2 witness: `{a ↦ x}` and
`{a ↦ y}` with key 5, values 50 and 60. -/
def stC2 : Store := ⟨[[(5, 50)], [(5, 60)]]⟩

/-- Witness for C2: with no update-bearing unit the result is the absent
value and the heap is untouched; with `{5 ↦ 50}` before `{5 ↦ 60}` the merge
maps key 5 to the later unit's value 60. -/
theorem get_updates_spec_witness :
    get_updates [unitA, unitB] stC2 = (none, stC2) ∧
    (get_updates [unitUpd0, unitUpd1] stC2).1 = some 0 ∧
    ((get_updates [unitUpd0, unitUpd1] stC2).2).get 0 = [(5, 60)] := by
  have h1 := (get_updates_spec [unitA, unitB] stC2).1 (by decide)
  have h2 := (get_updates_spec [unitUpd0, unitUpd1] stC2).2 (by decide)
    0 [(5, 50)] (by decide)
  refine ⟨h1, h2.1, ?_⟩
  rw [h2.2]
  decide

/-- C9: when at least one unit contributes a non-empty update mapping (the
units' dictionaries pairwise distinct objects), `get_updates()` returns the
very dictionary owned by the first contributing unit — its heap address —
and merging later units' entries has mutated that unit's own dictionary in
place, while no other unit's dictionary is changed. -/
theorem get_updates_mutates_first (ms : List ModelU) (st : Store)
    (hnodup : (updAddrs ms).Nodup) (a : Nat) (d : UpdDict)
    (hhead : (contribUpdates ms st).head? = some (a, d)) :
    (get_updates ms st).1 = some a ∧
    ((get_updates ms st).2).get a =
      mergeDicts ((contribUpdates ms st).map Prod.snd) ∧
    (∀ b, b ≠ a → ((get_updates ms st).2).get b = st.get b) :=
  get_updates_head ms st hnodup a d hhead

/-- Witness for C9: on the heap `{1 ↦ 10}` / `{1 ↦ 20}` with two
contributing units, `get_updates` returns address 0 — the first unit's own
dictionary — whose content afterwards is the merge `{1 ↦ 20}` and thus
differs from its content before the call, while the second unit's dictionary
is untouched. -/
theorem get_updates_mutates_first_witness :
    (get_updates [unitUpd0, unitUpd1] stXY).1 = some 0 ∧
    ((get_updates [unitUpd0, unitUpd1] stXY).2).get 0 = [(1, 20)] ∧
    ((get_updates [unitUpd0, unitUpd1] stXY).2).get 0 ≠ stXY.get 0 ∧
    ((get_updates [unitUpd0, unitUpd1] stXY).2).get 1 = stXY.get 1 := by
  have h := get_updates_mutates_first [unitUpd0, unitUpd1] stXY (by decide)
    0 [(1, 10)] (by decide)
  have hv : ((get_updates [unitUpd0, unitUpd1] stXY).2).get 0 = [(1, 20)] := by
    rw [h.2.1]
    decide
  refine ⟨h.1, hv, ?_, h.2.2 1 (by decide)⟩
  rw [hv]
  decide

/-! ### C3: `predict` builds the compiled function once and caches it -/

/-- An operation performed on the container after construction: an `add`
mutation or a `predict` call. -/
inductive PipeOp
  | addOp (m : ModelU)
  | predictOp (x : Nat)
deriving DecidableEq, Repr

/-- A container state together with the dictionary heap and the trace of
`predict` results, each recorded as the compiled function applied and its
raw input (running the compiled Theano function is external), or the raised
exception. -/
structure PState where
  proto : Prototype
  store : Store
  outs : List (Except PyErr (Compiled × Nat))
deriving DecidableEq, Repr

/-- One step: `add` appends a model; `predict` runs `predict`, recording its
result; a raised exception leaves the container unchanged. -/
def stepOp (s : PState) (op : PipeOp) : PState :=
  match op with
  | .addOp m => { s with proto := s.proto.add m }
  | .predictOp x =>
    match predict s.proto s.store x with
    | .ok (r, p2, st2) => { proto := p2, store := st2, outs := s.outs ++ [.ok r] }
    | .error e => { s with outs := s.outs ++ [.error e] }

/-- Run a sequence of operations on the container. -/
def runOps (s : PState) (ops : List PipeOp) : PState :=
  ops.foldl stepOp s

/-- The result each operation must produce once the compiled function `f` is
memoized: `add` records nothing, `predict x` records running `f` on `x`. -/
def predictOut (f : Compiled) : PipeOp → Option (Except PyErr (Compiled × Nat))
  | .predictOp x => some (.ok (f, x))
  | .addOp _ => none

/-- The snapshot `predict` compiles on its first call: the current
`get_inputs` result (when it succeeds), the current `get_outputs` value and
the current `get_updates` mapping. -/
def compileSnapshot (p : Prototype) (st : Store) (inps : List TVar) : Compiled :=
  ⟨inps, (get_outputs p.models).1, (get_updates p.models st).1⟩

/-- C3: on its first call (no memoized predictor), a successful `predict`
compiles the function from the `get_inputs`/`get_outputs`/`get_updates`
snapshot taken at that moment and memoizes exactly it; and once the
container holds a memoized compiled function, every subsequent operation
sequence — including further `add` mutations — never rebuilds it: the cached
function stays memoized and every later `predict` call runs that same cached
function. -/
theorem predict_memoizes :
    (∀ (p : Prototype) (st : Store) (x : Nat) (inps : List TVar),
        p.f_predict = none → get_inputs p.models = .ok inps →
        predict p st x =
          .ok ((compileSnapshot p st inps, x),
               { p with f_predict := some (compileSnapshot p st inps) },
               (get_updates p.models st).2)) ∧
    (∀ (s : PState) (f : Compiled) (ops : List PipeOp),
        s.proto.f_predict = some f →
        (runOps s ops).proto.f_predict = some f ∧
        (runOps s ops).outs = s.outs ++ ops.filterMap (predictOut f)) := by
  constructor
  · intro p st x inps h1 h2
    simp only [predict, h1, h2, compileSnapshot]
  · intro s f ops
    induction ops generalizing s with
    | nil =>
        intro h
        exact ⟨h, by simp [runOps]⟩
    | cons op rest ih =>
        intro h
        match op with
        | .addOp m =>
            have hstep : stepOp s (.addOp m) = { s with proto := s.proto.add m } := rfl
            have hf : (s.proto.add m).f_predict = some f := by
              simp only [Prototype.add]
              exact h
            have hrun : runOps s (.addOp m :: rest)
                = runOps { s with proto := s.proto.add m } rest := by
              simp only [runOps, List.foldl_cons, hstep]
            obtain ⟨ih1, ih2⟩ := ih { s with proto := s.proto.add m } hf
            rw [hrun]
            refine ⟨ih1, ?_⟩
            rw [ih2]
            simp only [List.filterMap_cons, predictOut]
        | .predictOp x =>
            have hpred : predict s.proto s.store x
                = .ok ((f, x), s.proto, s.store) := by
              simp only [predict, h]
            have hstep : stepOp s (.predictOp x)
                = { proto := s.proto, store := s.store,
                    outs := s.outs ++ [.ok (f, x)] } := by
              simp only [stepOp, hpred]
            have hrun : runOps s (.predictOp x :: rest)
                = runOps { proto := s.proto, store := s.store,
                           outs := s.outs ++ [.ok (f, x)] } rest := by
              simp only [runOps, List.foldl_cons, hstep]
            obtain ⟨ih1, ih2⟩ := ih
              { proto := s.proto, store := s.store,
                outs := s.outs ++ [.ok (f, x)] } h
            rw [hrun]
            refine ⟨ih1, ?_⟩
            rw [ih2]
            simp only [List.filterMap_cons, predictOut, List.append_assoc,
              List.singleton_append]

/-- The concrete container of the C3 witness: one unit, nothing memoized. -/
def protoW : Prototype := ⟨[unitB], none⟩

/-- The empty dictionary heap of the C3 witness. -/
def storeW : Store := ⟨[]⟩

/-- The compiled function `predict` builds for `protoW`: its snapshot has no
root inputs, the unit's output, and no updates. -/
def compiledW : Compiled := ⟨[], some (leafTVar 4), none⟩

/-- Witness for C3: the first `predict` call on `protoW` compiles and
memoizes `compiledW`; afterwards an `add` followed by another `predict`
leaves `compiledW` memoized and runs exactly that cached function. -/
theorem predict_memoizes_witness :
    predict protoW storeW 5 =
      .ok ((compiledW, 5), ⟨[unitB], some compiledW⟩, storeW) ∧
    (runOps ⟨⟨[unitB], some compiledW⟩, storeW, []⟩
      [.addOp unitA, .predictOp 7]).proto.f_predict = some compiledW ∧
    (runOps ⟨⟨[unitB], some compiledW⟩, storeW, []⟩
      [.addOp unitA, .predictOp 7]).outs = [.ok (compiledW, 7)] := by
  have h1 := predict_memoizes.1 protoW storeW 5 [] rfl rfl
  have h2 := predict_memoizes.2 ⟨⟨[unitB], some compiledW⟩, storeW, []⟩
    compiledW [.addOp unitA, .predictOp 7] rfl
  refine ⟨?_, h2.1, ?_⟩
  · rw [h1]
    rfl
  · rw [h2.2]
    rfl
